import Mathlib

/-!
Verification of the stepwise simplex engine (`LinearProgram` and its
`CyclingAvoidance` picking strategy) against its specification.

The embedding mirrors the source:
* coefficients are exact rationals, embedded as a `Fraction` type (the
  algebra library's `Fraction`): integer numerator, positive denominator,
  reduced by a gcd whose recursion is structural so that concrete runs
  compute inside the kernel; comparisons are value comparisons;
* an algebra expression is a list of (variable, coefficient) terms plus a
  list of constants (the source's `constants : Fraction[]`, which may be
  empty; `getConstant` treats an empty list as 0);
* the source builds expressions only through the algebra library's
  simplifying operations (`add`, `eval`, `solveFor`), so every derived
  expression has combined like terms, no zero coefficients, and a constants
  list that is `[]` exactly when the constant is 0 — `Expression.simplified`
  reproduces that normal form;
* JS `Set<string>` is an insertion-ordered duplicate-free list
  (`setAdd` / `setDelete`);
* the reference equality used by `doPivot` to find the leaving constraint
  is represented by the constraint's index in the constraint list;
* exceptions (failed `assert`s, the out-of-bounds `constants[0].valueOf()`
  access, the fatal contradiction branch) are `Except.error` / `none`.
-/

/-- Euclid's algorithm with explicit fuel, so that the kernel can reduce it. -/
def gcdF : Nat → Nat → Nat → Nat
  | 0, _, n => n
  | fuel + 1, m, n => if m = 0 then n else gcdF fuel (n % m) m

/-- Greatest common divisor via `gcdF` (fuel `m + 1` always suffices). -/
def natGcd (m n : Nat) : Nat := gcdF (m + 1) m n

theorem gcdF_eq (fuel : Nat) : ∀ m n, m < fuel → gcdF fuel m n = Nat.gcd m n := by
  induction fuel with
  | zero => intro m n h; omega
  | succ f ih =>
    intro m n h
    by_cases hm : m = 0
    · subst hm; simp [gcdF]
    · have hmod : n % m < m := Nat.mod_lt _ (Nat.pos_of_ne_zero hm)
      rw [gcdF, if_neg hm, ih (n % m) m (by omega)]
      exact (Nat.gcd_rec m n).symm

theorem natGcd_eq (m n : Nat) : natGcd m n = Nat.gcd m n :=
  gcdF_eq (m + 1) m n (Nat.lt_succ_self m)

/-- An exact rational: integer numerator over a positive denominator.  Values
produced by the arithmetic below are always reduced (the algebra library
reduces after every operation). -/
structure Fraction where
  num : Int
  den : Nat
  dpos : 0 < den

instance : DecidableEq Fraction := fun a b =>
  decidable_of_iff (a.num = b.num ∧ a.den = b.den) (by cases a; cases b; simp)

instance : Repr Fraction := ⟨fun q _ => repr (q.num, q.den)⟩

theorem natGcd_pos {n : Int} {d : Nat} (hd : 0 < d) : 0 < natGcd n.natAbs d := by
  rw [natGcd_eq]; exact Nat.gcd_pos_of_pos_right _ hd

theorem natGcd_dvd_den (n : Int) {d : Nat} (hd : 0 < d) : natGcd n.natAbs d ∣ d := by
  rw [natGcd_eq]; exact Nat.gcd_dvd_right _ _

theorem natGcd_dvd_num (n : Int) (d : Nat) : (natGcd n.natAbs d : Int) ∣ n := by
  apply Int.natAbs_dvd_natAbs.mp
  simpa [natGcd_eq] using Nat.gcd_dvd_left n.natAbs d

/-- Reduce the fraction `n / d` for a positive denominator. -/
def qnorm (n : Int) (d : Nat) (hd : 0 < d) : Fraction :=
  ⟨n / (natGcd n.natAbs d : Int), d / natGcd n.natAbs d,
    Nat.div_pos (Nat.le_of_dvd hd (natGcd_dvd_den n hd)) (natGcd_pos hd)⟩

/-- Build the reduced fraction `n / d` (0 when `d = 0`, matching division by
zero yielding the zero value). -/
def qmk (n d : Int) : Fraction :=
  if hd : d = 0 then ⟨0, 1, Nat.one_pos⟩
  else if hneg : d < 0 then qnorm (-n) d.natAbs (Int.natAbs_pos.mpr hd)
  else qnorm n d.natAbs (Int.natAbs_pos.mpr hd)

instance : OfNat Fraction n := ⟨⟨Int.ofNat n, 1, Nat.one_pos⟩⟩
instance : Neg Fraction := ⟨fun a => ⟨-a.num, a.den, a.dpos⟩⟩
instance : Add Fraction := ⟨fun a b => qmk (a.num * b.den + b.num * a.den) (a.den * b.den)⟩
instance : Mul Fraction := ⟨fun a b => qmk (a.num * b.num) (a.den * b.den)⟩
instance : Sub Fraction := ⟨fun a b => a + -b⟩
instance : Div Fraction := ⟨fun a b => qmk (a.num * b.den) (a.den * b.num)⟩
instance : LE Fraction := ⟨fun a b => a.num * (b.den : Int) ≤ b.num * (a.den : Int)⟩
instance : LT Fraction := ⟨fun a b => a.num * (b.den : Int) < b.num * (a.den : Int)⟩

instance (a b : Fraction) : Decidable (a ≤ b) :=
  inferInstanceAs (Decidable (a.num * (b.den : Int) ≤ b.num * (a.den : Int)))

instance (a b : Fraction) : Decidable (a < b) :=
  inferInstanceAs (Decidable (a.num * (b.den : Int) < b.num * (a.den : Int)))

/-- Value equality of fractions (the JS `==` on the rendered numbers). -/
def Fraction.veq (a b : Fraction) : Bool := a.num * (b.den : Int) == b.num * (a.den : Int)

/-- Interpretation of a `Fraction` as a rational number, for reasoning. -/
def toRat (q : Fraction) : ℚ := (q.num : ℚ) / (q.den : ℚ)

theorem int_ediv_cast (n : Int) (g : Nat) (hg : 0 < g) (hdvd : (g : Int) ∣ n) :
    ((n / (g : Int) : Int) : ℚ) = (n : ℚ) / (g : ℚ) := by
  obtain ⟨k, hk⟩ := hdvd
  subst hk
  rw [Int.mul_ediv_cancel_left _ (by exact_mod_cast hg.ne')]
  have hgne : ((g : Nat) : ℚ) ≠ 0 := by exact_mod_cast hg.ne'
  push_cast
  field_simp

theorem nat_div_cast (d g : Nat) (hg : 0 < g) (hdvd : g ∣ d) :
    ((d / g : Nat) : ℚ) = (d : ℚ) / (g : ℚ) := by
  obtain ⟨k, hk⟩ := hdvd
  subst hk
  rw [Nat.mul_div_cancel_left _ hg]
  have hgne : ((g : Nat) : ℚ) ≠ 0 := by exact_mod_cast hg.ne'
  push_cast
  field_simp

theorem toRat_qnorm (n : Int) (d : Nat) (hd : 0 < d) :
    toRat (qnorm n d hd) = (n : ℚ) / (d : ℚ) := by
  unfold qnorm toRat
  simp only
  rw [int_ediv_cast _ _ (natGcd_pos hd) (natGcd_dvd_num n d),
    nat_div_cast _ _ (natGcd_pos hd) (natGcd_dvd_den n hd)]
  have hgQ : ((natGcd n.natAbs d : Nat) : ℚ) ≠ 0 := by
    exact_mod_cast (natGcd_pos hd).ne'
  have hdQ : ((d : Nat) : ℚ) ≠ 0 := by exact_mod_cast hd.ne'
  field_simp

theorem toRat_qmk (n d : Int) : toRat (qmk n d) = (n : ℚ) / (d : ℚ) := by
  unfold qmk
  by_cases hd : d = 0
  · simp [hd, toRat]
  · rw [dif_neg hd]
    by_cases hneg : d < 0
    · rw [dif_pos hneg, toRat_qnorm]
      have hdn : ((d.natAbs : Nat) : ℚ) = -(d : ℚ) := by
        rw [Int.cast_natAbs]
        exact_mod_cast abs_of_nonpos (le_of_lt hneg)
      rw [hdn]
      push_cast
      rw [neg_div_neg_eq]
    · rw [dif_neg hneg, toRat_qnorm]
      have hdn : ((d.natAbs : Nat) : ℚ) = (d : ℚ) := by
        rw [Int.cast_natAbs]
        exact_mod_cast abs_of_nonneg (not_lt.mp hneg)
      rw [hdn]

theorem toRat_den_pos (q : Fraction) : (0 : ℚ) < (q.den : ℚ) := by
  exact_mod_cast q.dpos

theorem toRat_add (a b : Fraction) : toRat (a + b) = toRat a + toRat b := by
  show toRat (qmk _ _) = _
  rw [toRat_qmk]
  unfold toRat
  have ha := (toRat_den_pos a).ne'
  have hb := (toRat_den_pos b).ne'
  field_simp

theorem toRat_mul (a b : Fraction) : toRat (a * b) = toRat a * toRat b := by
  show toRat (qmk _ _) = _
  rw [toRat_qmk]
  unfold toRat
  have ha := (toRat_den_pos a).ne'
  have hb := (toRat_den_pos b).ne'
  field_simp

theorem toRat_neg (a : Fraction) : toRat (-a) = -toRat a := by
  show toRat ⟨-a.num, a.den, a.dpos⟩ = _
  unfold toRat
  push_cast
  ring

theorem toRat_sub (a b : Fraction) : toRat (a - b) = toRat a - toRat b := by
  show toRat (a + -b) = _
  rw [toRat_add, toRat_neg]
  ring

theorem toRat_div (a b : Fraction) : toRat (a / b) = toRat a / toRat b := by
  show toRat (qmk _ _) = _
  rw [toRat_qmk]
  unfold toRat
  have ha := (toRat_den_pos a).ne'
  have hb := (toRat_den_pos b).ne'
  by_cases hnb : b.num = 0
  · simp [hnb]
  · have hnb' : ((b.num : ℚ)) ≠ 0 := by exact_mod_cast hnb
    field_simp

theorem toRat_ofNat (n : Nat) : toRat (OfNat.ofNat n) = (n : ℚ) := by
  show toRat ⟨Int.ofNat n, 1, Nat.one_pos⟩ = _
  unfold toRat
  push_cast
  simp

theorem toRat_zero : toRat 0 = 0 := toRat_ofNat 0

theorem toRat_one : toRat 1 = 1 := by rw [toRat_ofNat 1]; norm_num

theorem Fraction.le_iff (a b : Fraction) : a ≤ b ↔ toRat a ≤ toRat b := by
  show a.num * (b.den : Int) ≤ b.num * (a.den : Int) ↔ _
  unfold toRat
  rw [div_le_div_iff (toRat_den_pos a) (toRat_den_pos b)]
  constructor
  · intro h; exact_mod_cast h
  · intro h; exact_mod_cast h

theorem Fraction.lt_iff (a b : Fraction) : a < b ↔ toRat a < toRat b := by
  show a.num * (b.den : Int) < b.num * (a.den : Int) ↔ _
  unfold toRat
  rw [div_lt_div_iff (toRat_den_pos a) (toRat_den_pos b)]
  constructor
  · intro h; exact_mod_cast h
  · intro h; exact_mod_cast h

theorem Fraction.veq_iff (a b : Fraction) : a.veq b = true ↔ toRat a = toRat b := by
  show (a.num * (b.den : Int) == b.num * (a.den : Int)) = true ↔ _
  rw [beq_iff_eq]
  unfold toRat
  rw [div_eq_div_iff (toRat_den_pos a).ne' (toRat_den_pos b).ne']
  constructor
  · intro h; exact_mod_cast h
  · intro h; exact_mod_cast h

/-- One term of an algebra expression is a (variable, coefficient) pair; an
algebra.js expression is the terms plus a (possibly empty) constants list. -/
structure Expression where
  terms : List (String × Fraction)
  constants : List Fraction
deriving Repr, DecidableEq

/-- `getConstant`: first constant of the list, or 0 when the list is empty. -/
def getConstant (cs : List Fraction) : Fraction := cs.headD 0

/-- The constant term of an expression (empty constants list counts as 0). -/
def Expression.constantVal (e : Expression) : Fraction := getConstant e.constants

/-- `coeffOf`: coefficient of the first term carrying the given variable, 0 if absent. -/
def coeffOf (ts : List (String × Fraction)) (v : String) : Fraction :=
  match ts.find? (fun t => t.1 == v) with
  | some t => t.2
  | none => 0

/-- Total coefficient of a variable (all like terms summed), as the algebra
library's combining of like terms computes it. -/
def keySum (v : String) : List (String × Fraction) → Fraction
  | [] => 0
  | t :: ts => (if t.1 = v then t.2 else 0) + keySum v ts

/-- Add a term into an association list, combining with an existing like term. -/
def insertTerm : List (String × Fraction) → (String × Fraction) → List (String × Fraction)
  | [], t => [t]
  | u :: ts, t => if u.1 = t.1 then (u.1, u.2 + t.2) :: ts else u :: insertTerm ts t

/-- Combine all like terms, keeping first-occurrence order. -/
def combineTerms (ts : List (String × Fraction)) : List (String × Fraction) :=
  ts.foldl insertTerm []

/-- The algebra library's simplified normal form: like terms combined, zero
coefficients dropped, constants list `[]` iff the constant is 0. -/
def Expression.simplified (ts : List (String × Fraction)) (c : Fraction) : Expression :=
  ⟨(combineTerms ts).filter (fun t => !t.2.veq 0), if c.veq 0 then [] else [c]⟩

/-- Look up a substitution for a variable (first binding wins). -/
def lookupSub (σ : List (String × Expression)) (v : String) : Option Expression :=
  (σ.find? (fun b => b.1 == v)).map (fun b => b.2)

/-- Substitute bound variables in a term list; returns the substituted raw
terms and the constant contributed by the substituted expressions. -/
def evalTerms (σ : List (String × Expression)) :
    List (String × Fraction) → List (String × Fraction) × Fraction
  | [] => ([], 0)
  | t :: ts =>
    let r := evalTerms σ ts
    match lookupSub σ t.1 with
    | some f => (f.terms.map (fun u => (u.1, t.2 * u.2)) ++ r.1, t.2 * f.constantVal + r.2)
    | none => (t :: r.1, r.2)

/-- `Expression.eval` of algebra.js: substitute and simplify. -/
def Expression.eval (e : Expression) (σ : List (String × Expression)) : Expression :=
  let r := evalTerms σ e.terms
  Expression.simplified r.1 (e.constantVal + r.2)

/-- A constraint equation `lhsCoeff * lhsVar = rhs`; the source asserts the
left side is a single term (for inputs built by `algebra.parse` the
coefficient is 1). -/
structure Equation where
  lhsVar : String
  lhsCoeff : Fraction
  rhs : Expression
deriving Repr, DecidableEq

/-- `Equation.solveFor`: isolate a variable of the equation
`lhsCoeff * lhsVar = rhs` and return the solved (simplified) expression. -/
def Equation.solveFor (eq : Equation) (x : String) : Expression :=
  let a := keySum x eq.rhs.terms
  let denom := (if eq.lhsVar = x then eq.lhsCoeff else 0) - a
  let base := (eq.rhs.terms.filter (fun t => t.1 != x)).map (fun t => (t.1, t.2 / denom))
  let ts := if eq.lhsVar = x then base else base ++ [(eq.lhsVar, -eq.lhsCoeff / denom)]
  Expression.simplified ts (eq.rhs.constantVal / denom)

/-- Insertion into a JS `Set<string>`: appends iff absent. -/
def setAdd (l : List String) (x : String) : List String :=
  if x ∈ l then l else l ++ [x]

/-- Deletion from a JS `Set<string>`. -/
def setDelete (l : List String) (x : String) : List String := l.erase x

/-- The `Result` enumeration of step statuses. -/
inductive Result where
  | OPTIMIZABLE
  | OPTIMAL
  | UNBOUNDED
  | INFEASIBLE
  | HELP_NEEDED
  | HELPER_CREATED
  | HELPER_FEASIBLE
  | ORIGIN_FEASIBLE
deriving Repr, DecidableEq

/-- The `LinearProgram` dictionary state.  `history` is the mutable signature
set of the attached `CyclingAvoidance` strategy (the default strategy created
by the constructor); signatures are the objective expressions themselves,
standing for their rendered strings. -/
structure LinearProgram where
  /-- The source field `variables` (a Lean keyword, hence renamed). -/
  varCount : Int
  nonBasics : List String
  objective : Expression
  constraints : List Equation
  basics : List String
  helper : Option String
  history : List Expression
deriving Repr, DecidableEq

/-- The non-basic name set collected by the constructor: objective term
variables first, then right-hand-side term variables, in insertion order. -/
def nonBasicsOf (objective : Expression) (constraints : List Equation) : List String :=
  constraints.foldl (fun s c => c.rhs.terms.foldl (fun s' t => setAdd s' t.1) s)
    (objective.terms.foldl (fun s t => setAdd s t.1) [])

/-- The basic name set collected by the constructor. -/
def basicsOf (constraints : List Equation) : List String :=
  constraints.foldl (fun s c => setAdd s c.lhsVar) []

/-- The `LinearProgram` constructor: validates the variable count, collects
basic and non-basic names in insertion order, and checks that the number of
discovered non-basic names matches the declared count.  `none` models a
thrown construction `assert`. -/
def mkLP (varCount : Int) (objective : Expression) (constraints : List Equation) :
    Option LinearProgram :=
  if varCount > 0 then
    if constraints.all (fun c => decide ((c.rhs.terms.length : Int) ≤ varCount)) then
      if ((nonBasicsOf objective constraints).length : Int) = varCount then
        some ⟨varCount, nonBasicsOf objective constraints, objective, constraints,
          basicsOf constraints, none, []⟩
      else none
    else none
  else none

/-- `isFeasible`: every constraint's constant is ≥ 0, an empty constants list
counting as feasible. -/
def isFeasible (lp : LinearProgram) : Bool :=
  lp.constraints.all (fun c =>
    (!c.rhs.constants.isEmpty && decide (getConstant c.rhs.constants ≥ 0))
      || c.rhs.constants.isEmpty)

/-- `isOptimal`: every objective coefficient is ≤ 0. -/
def isOptimal (lp : LinearProgram) : Bool :=
  lp.objective.terms.all (fun t => decide (t.2 ≤ 0))

/-- `isUnbounded`: some objective term has a positive coefficient while every
constraint's coefficient of that variable is ≥ 0. -/
def isUnbounded (lp : LinearProgram) : Bool :=
  lp.objective.terms.any (fun t =>
    decide (t.2 > 0) && lp.constraints.all (fun c => decide (coeffOf c.rhs.terms t.1 ≥ 0)))

/-- A pivot candidate: entering variable, index of the leaving constraint
(standing for the source's object reference), and the increment bound. -/
structure Candidate where
  varName : String
  consIdx : Nat
  bound : Fraction
deriving Repr, DecidableEq

/-- Result of the entering-candidate search. -/
inductive PickResult where
  | optimal
  | unbounded
  | candidates (cs : List Candidate)
deriving Repr, DecidableEq

/-- Pair each list element with its index, starting at `n`. -/
def enumFrom (n : Nat) : List α → List (Nat × α)
  | [] => []
  | a :: as => (n, a) :: enumFrom (n + 1) as

/-- The inner constraint scan of `pickEnter` for one profitable variable.
`Except.error` models the `constants[0].valueOf()` TypeError thrown when a
later negative-coefficient constraint has an empty constants list (the first
one found goes through `getConstant` instead). -/
def innerScan (v : String) : List (Nat × Equation) → Option Candidate →
    Except Unit (Option Candidate)
  | [], acc => .ok acc
  | (i, eq) :: rest, acc =>
    let coeff := coeffOf eq.rhs.terms v
    if coeff < 0 then
      match acc with
      | none => innerScan v rest (some ⟨v, i, getConstant eq.rhs.constants / (-coeff)⟩)
      | some best =>
        match eq.rhs.constants.head? with
        | none => .error ()
        | some c0 =>
          if c0 / (-coeff) < best.bound then
            innerScan v rest (some ⟨v, i, getConstant eq.rhs.constants / (-coeff)⟩)
          else innerScan v rest (some best)
    else innerScan v rest acc

/-- The outer loop of `pickEnter` over the non-basic variables. -/
def pickEnterAux (obj : Expression) (icons : List (Nat × Equation)) :
    List String → List Candidate → Except Unit PickResult
  | [], acc => .ok (if acc.isEmpty then .optimal else .candidates acc)
  | v :: vs, acc =>
    if coeffOf obj.terms v > 0 then
      match innerScan v icons none with
      | .error e => .error e
      | .ok none => .ok .unbounded
      | .ok (some cand) => pickEnterAux obj icons vs (acc ++ [cand])
    else pickEnterAux obj icons vs acc

/-- `pickEnter`: the ratio test producing one candidate per profitable
non-basic variable, in the non-basic set's iteration order. -/
def pickEnter (lp : LinearProgram) : Except Unit PickResult :=
  pickEnterAux lp.objective (enumFrom 0 lp.constraints) lp.nonBasics []

/-- `getCurrentSolution`: the objective's constant term. -/
def getCurrentSolution (lp : LinearProgram) : Fraction :=
  getConstant lp.objective.constants

/-- `CyclingAvoidance.pick` on a non-empty candidate list `c0 :: rest`, given
the current objective (whose rendering is the signature) and the history;
returns the chosen candidate and the updated history. -/
def cyclingPick (c0 : Candidate) (rest : List Candidate) (obj : Expression)
    (history : List Expression) : Candidate × List Expression :=
  if c0.bound.veq 0 then
    if obj ∈ history then
      (match rest with
       | c1 :: _ => c1
       | [] => c0, history)
    else (c0, history ++ [obj])
  else (c0, [])

/-- Map with the element's index, starting at `n`. -/
def mapIdxFrom (f : Nat → α → β) (n : Nat) : List α → List β
  | [] => []
  | a :: as => f n a :: mapIdxFrom f (n + 1) as

/-- `doPivot`: enter `enterVar` against the constraint at index `i`, solving
it for the entering variable, substituting into the other constraints and
the objective, and swapping basic/non-basic membership. -/
def doPivot (lp : LinearProgram) (enterVar : String) (i : Nat) : LinearProgram :=
  match lp.constraints[i]? with
  | none => lp
  | some constraint =>
    let b := constraint.lhsVar
    let newRhs := constraint.solveFor enterVar
    let cons' := mapIdxFrom (fun j c =>
      if j = i then ⟨enterVar, 1, newRhs⟩
      else ⟨c.lhsVar, c.lhsCoeff, c.rhs.eval [(enterVar, newRhs)]⟩) 0 lp.constraints
    { lp with
      constraints := cons',
      nonBasics := setAdd (setDelete lp.nonBasics enterVar) b,
      basics := setAdd (setDelete lp.basics b) enterVar,
      objective := lp.objective.eval [(enterVar, newRhs)] }

/-- Clear the `CyclingAvoidance` history (its reaction to the `OPTIMAL`,
`UNBOUNDED` and `INFEASIBLE` events it subscribes to). -/
def clearHistory (lp : LinearProgram) : LinearProgram := { lp with history := [] }

/-- Effect of `emit r` on the attached strategy. -/
def applyEmit (lp : LinearProgram) (r : Result) : LinearProgram :=
  match r with
  | .OPTIMAL => clearHistory lp
  | .UNBOUNDED => clearHistory lp
  | .INFEASIBLE => clearHistory lp
  | _ => lp

/-- `next()`: one transition of the step driver.  `none` models a thrown
error (the fatal contradiction branch, the post-pivot feasibility assert, or
a crash inside `pickEnter`). -/
def nextStep (lp : LinearProgram) : Option (Result × LinearProgram) :=
  if isUnbounded lp then some (.UNBOUNDED, lp)
  else if isFeasible lp then
    match pickEnter lp with
    | .error _ => none
    | .ok .optimal => some (.OPTIMAL, clearHistory lp)
    | .ok .unbounded => none
    | .ok (.candidates cs) =>
      match cs with
      | [] => none
      | c0 :: rest =>
        let pr := cyclingPick c0 rest lp.objective lp.history
        let lp1 := doPivot { lp with history := pr.2 } pr.1.varName pr.1.consIdx
        if isFeasible lp1 then
          if isOptimal lp1 then some (.OPTIMAL, clearHistory lp1)
          else if isUnbounded lp1 then some (.UNBOUNDED, clearHistory lp1)
          else some (.OPTIMIZABLE, lp1)
        else none
  else some (.HELP_NEEDED, lp)

/-- Name of the helper variable introduced by `infeasibleHelper`. -/
def helperName : String := "helperVariable"

/-- `rhs.add(helperVar)`: append the helper term and simplify. -/
def addHelper (e : Expression) : Expression :=
  Expression.simplified (e.terms ++ [(helperName, 1)]) e.constantVal

/-- First index whose constraint has the strictly smallest constant so far
(the source starts from `+Infinity`, so the first constraint always wins
initially and only strictly smaller constants replace it). -/
def argminE : List (Nat × Equation) → Option (Nat × Equation) → Option (Nat × Equation)
  | [], acc => acc
  | (i, c) :: rest, none => argminE rest (some (i, c))
  | (i, c) :: rest, some (b, cb) =>
    if getConstant c.rhs.constants < getConstant cb.rhs.constants then
      argminE rest (some (i, c))
    else argminE rest (some (b, cb))

/-- Construction of the auxiliary dictionary in `infeasibleHelper`: re-run
the constructor on the current program, register the helper name, bump the
variable count, replace the objective by the negated helper, add the helper
to every constraint, and record the index of the first minimal-constant
constraint as the first pivot's target. -/
def mkHelperLP (lp : LinearProgram) : Option (LinearProgram × Nat) :=
  match mkLP lp.varCount lp.objective lp.constraints with
  | none => none
  | some hlp0 =>
    match argminE (enumFrom 0 lp.constraints) none with
    | none => none
    | some (idx, _) =>
      some ({ hlp0 with
        helper := some helperName,
        varCount := hlp0.varCount + 1,
        objective := ⟨[(helperName, -1)], []⟩,
        constraints := lp.constraints.map (fun c => ⟨c.lhsVar, c.lhsCoeff, addHelper c.rhs⟩) },
        idx)

/-- The first two yields of `infeasibleHelper`: the freshly built auxiliary
dictionary with `HELPER_CREATED`, then the dictionary after pivoting the
helper in against the minimal-constant constraint with `HELPER_FEASIBLE`;
also returns the post-pivot dictionary the delegated solve starts from. -/
def infeasibleHelperStart (lp : LinearProgram) :
    Option (List (LinearProgram × Result) × LinearProgram) :=
  match mkHelperLP lp with
  | none => none
  | some (hlp, idx) =>
    let hlp1 := doPivot hlp helperName idx
    some ([(hlp, .HELPER_CREATED), (hlp1, .HELPER_FEASIBLE)], hlp1)

/-- Reconciliation of the auxiliary result into the original program:
substitute the helper by 0 in the final auxiliary constraints, adopt them,
and rebuild the objective by substituting every basic variable's final
expression (later JS object assignments win, hence the reverse). -/
def originRebuild (lp : LinearProgram) (hlp : LinearProgram) : LinearProgram :=
  let h := hlp.helper.getD helperName
  let cons' := hlp.constraints.map (fun c =>
    ⟨c.lhsVar, c.lhsCoeff, c.rhs.eval [(h, ⟨[], []⟩)]⟩)
  let varMap := (cons'.map (fun c => (c.lhsVar, c.rhs))).reverse
  { lp with constraints := cons', objective := lp.objective.eval varMap }

/-- Handling of the completed auxiliary solve in `solve`: require `OPTIMAL`,
emit `INFEASIBLE` and stop when the auxiliary optimum is non-zero, otherwise
rebuild the original dictionary, emit `ORIGIN_FEASIBLE` and continue with
`cont` (the recursive outer solve).  `hpairs` are all forwarded auxiliary
pairs, each of which was re-emitted on the outer program. -/
def finishHelper (cont : LinearProgram → Option (List (LinearProgram × Result)))
    (lp1 : LinearProgram) (hpairs : List (LinearProgram × Result)) :
    Option (List (LinearProgram × Result)) :=
  match hpairs.getLast? with
  | none => none
  | some (hlast, rlast) =>
    let lp2 := hpairs.foldl (fun l p => applyEmit l p.2) lp1
    if rlast = .OPTIMAL then
      if (getCurrentSolution hlast).veq 0 then
        let lp3 := originRebuild lp2 hlast
        match cont lp3 with
        | none => none
        | some tail => some (hpairs ++ (lp3, .ORIGIN_FEASIBLE) :: tail)
      else some (hpairs ++ [(clearHistory lp2, .INFEASIBLE)])
    else none

/-- The `while (result == OPTIMIZABLE)` loop of `solve`: repeatedly `next`,
emitting and yielding each pair, until a non-`OPTIMIZABLE` result; returns
the yielded pairs, the final state and the final result. -/
def solveLoop : Nat → LinearProgram →
    Option (List (LinearProgram × Result) × LinearProgram × Result)
  | 0, _ => none
  | fuel + 1, lp =>
    match nextStep lp with
    | none => none
    | some (r, lp') =>
      let lp2 := applyEmit lp' r
      if r = .OPTIMIZABLE then
        match solveLoop fuel lp2 with
        | none => none
        | some (ps, flp, fr) => some ((lp2, r) :: ps, flp, fr)
      else some ([(lp2, r)], lp2, r)

/-- `solve()`: the full lazy pair sequence, fuelled.  `none` is fuel
exhaustion or a thrown error; otherwise the list of yielded
(dictionary snapshot, status) pairs in order. -/
def solveSteps : Nat → LinearProgram → Option (List (LinearProgram × Result))
  | 0, _ => none
  | fuel + 1, lp =>
    match solveLoop (fuel + 1) lp with
    | none => none
    | some (ps, lp1, r) =>
      if r = .HELP_NEEDED then
        match infeasibleHelperStart lp1 with
        | none => none
        | some (hpre, hlp1) =>
          match solveSteps fuel hlp1 with
          | none => none
          | some hps =>
            match finishHelper (solveSteps fuel) lp1 (hpre ++ hps) with
            | none => none
            | some tail => some (ps ++ tail)
      else some ps

/-- `solveAll()`: the statuses of a complete run. -/
def runStatuses (fuel : Nat) (lp : LinearProgram) : Option (List Result) :=
  (solveSteps fuel lp).map (fun ps => ps.map (fun p => p.2))

/-- The final (dictionary, status) pair of a complete run. -/
def finalPair (fuel : Nat) (lp : LinearProgram) : Option (LinearProgram × Result) :=
  (solveSteps fuel lp).bind (fun ps => ps.getLast?)

/-- Substitution sending every non-basic variable of `lp` to 0. -/
def zeroSub (lp : LinearProgram) : List (String × Expression) :=
  lp.nonBasics.map (fun v => (v, ⟨[], []⟩))

/-- The value of basic variable `v` in the current dictionary when every
non-basic variable is set to 0: the expression obtained by substituting 0
for all non-basics into the constraint whose basic variable is `v`. -/
def basicValueAtZero (lp : LinearProgram) (v : String) : Option Expression :=
  (lp.constraints.find? (fun c => c.lhsVar == v)).map (fun c => c.rhs.eval (zeroSub lp))

/-! ## Supporting lemmas -/

instance {ε α} [DecidableEq ε] [DecidableEq α] : DecidableEq (Except ε α)
  | .error e, .error e' => decidable_of_iff (e = e') (by simp)
  | .error _, .ok _ => isFalse (by simp)
  | .ok _, .error _ => isFalse (by simp)
  | .ok a, .ok a' => decidable_of_iff (a = a') (by simp)

theorem toRat_zero' : toRat (0 : Fraction) = 0 := toRat_zero

theorem all_terms_nonpos {lp : LinearProgram} (h : isOptimal lp = true) :
    ∀ t ∈ lp.objective.terms, toRat t.2 ≤ 0 := by
  intro t ht
  unfold isOptimal at h
  rw [List.all_eq_true] at h
  have := h t ht
  rw [decide_eq_true_eq, Fraction.le_iff, toRat_zero] at this
  exact this

theorem coeffOf_nonpos {ts : List (String × Fraction)}
    (h : ∀ t ∈ ts, toRat t.2 ≤ 0) (v : String) : ¬(coeffOf ts v > 0) := by
  unfold coeffOf
  cases hf : ts.find? (fun t => t.1 == v) with
  | none =>
    intro hlt
    rw [gt_iff_lt, Fraction.lt_iff, toRat_zero] at hlt
    exact absurd hlt (by simp)
  | some t =>
    intro hlt
    rw [gt_iff_lt, Fraction.lt_iff, toRat_zero] at hlt
    exact absurd hlt (not_lt.mpr (h t (List.mem_of_find?_eq_some hf)))

theorem isUnbounded_false_of_isOptimal {lp : LinearProgram} (h : isOptimal lp = true) :
    isUnbounded lp = false := by
  unfold isUnbounded
  rw [List.any_eq_false]
  intro t ht
  have h1 : ¬(t.2 > 0) := by
    intro hlt
    rw [gt_iff_lt, Fraction.lt_iff, toRat_zero] at hlt
    exact absurd hlt (not_lt.mpr (all_terms_nonpos h t ht))
  simp [h1]

theorem pickEnterAux_all_nonpos (obj : Expression) (icons : List (Nat × Equation))
    (h : ∀ v, ¬(coeffOf obj.terms v > 0)) :
    ∀ vs, pickEnterAux obj icons vs [] = .ok .optimal := by
  intro vs
  induction vs with
  | nil => rfl
  | cons v vs ih =>
    unfold pickEnterAux
    rw [if_neg (h v)]
    exact ih

/-! ## Concrete programs used by the claims -/

/-- The golden scenario's objective `2 x1 + 3 x2`. -/
def objC1 : Expression := ⟨[("x1", 2), ("x2", 3)], []⟩

/-- The golden scenario's constraints `w1 = 6 - x1 - x2`, `w2 = 10 - 2 x1 - x2`,
`w3 = 4 + x1 - x2`. -/
def consC1 : List Equation :=
  [⟨"w1", 1, ⟨[("x1", -1), ("x2", -1)], [6]⟩⟩,
   ⟨"w2", 1, ⟨[("x1", -2), ("x2", -1)], [10]⟩⟩,
   ⟨"w3", 1, ⟨[("x1", 1), ("x2", -1)], [4]⟩⟩]

/-- The golden scenario's constructed program. -/
def lpC1 : LinearProgram := ⟨2, ["x1", "x2"], objC1, consC1, ["w1", "w2", "w3"], none, []⟩

/-- The unboundedness scenario: objective `x1`, constraint `w1 = 5 + x1`. -/
def lpUnb : LinearProgram :=
  ⟨1, ["x1"], ⟨[("x1", 1)], []⟩, [⟨"w1", 1, ⟨[("x1", 1)], [5]⟩⟩], ["w1"], none, []⟩

/-- An infeasible dictionary whose objective has only non-positive
coefficients: objective `-x1`, constraint `w1 = -1 - x1`. -/
def lpOptInf : LinearProgram :=
  ⟨1, ["x1"], ⟨[("x1", -1)], []⟩, [⟨"w1", 1, ⟨[("x1", -1)], [-1]⟩⟩], ["w1"], none, []⟩

/-- A feasible and optimal dictionary: objective `-x1`, constraint `w1 = 1 - x1`. -/
def lpOptFeas : LinearProgram :=
  ⟨1, ["x1"], ⟨[("x1", -1)], []⟩, [⟨"w1", 1, ⟨[("x1", -1)], [1]⟩⟩], ["w1"], none, []⟩

/-- A feasible dictionary whose ratio test crashes: objective `x1`,
constraints `w1 = 1 - x1` and `w2 = -x1` (the second has an empty constants
list). -/
def lpCrash : LinearProgram :=
  ⟨1, ["x1"], ⟨[("x1", 1)], []⟩,
   [⟨"w1", 1, ⟨[("x1", -1)], [1]⟩⟩, ⟨"w2", 1, ⟨[("x1", -1)], []⟩⟩], ["w1", "w2"], none, []⟩

/-- The infeasibility scenario: objective `x1`, constraint `w1 = -1 - x1`. -/
def lpInf : LinearProgram :=
  ⟨1, ["x1"], ⟨[("x1", 1)], []⟩, [⟨"w1", 1, ⟨[("x1", -1)], [-1]⟩⟩], ["w1"], none, []⟩

/-- A program used to witness the infeasible branch of `finishHelper`:
its objective constant (the auxiliary optimum) is `-1 ≠ 0`. -/
def lpAuxNeg : LinearProgram := ⟨1, [], ⟨[], [-1]⟩, [], [], none, []⟩

/-! ## Claims -/

/-- Claim C1: for the LinearProgram constructed with variables = 2, objective
`2 x1 + 3 x2` and constraints `w1 = 6 - x1 - x2`, `w2 = 10 - 2 x1 - x2`,
`w3 = 4 + x1 - x2`, consuming `solve()` to its end reaches terminal status
`OPTIMAL`, the final objective's constant term is 17, and substituting all
non-basic variables = 0 into the basic-variable expressions yields `x1 = 1`
and `x2 = 5`. -/
theorem claim_C1 :
    mkLP 2 objC1 consC1 = some lpC1 ∧
    (finalPair 10 lpC1).map (fun p => p.2) = some Result.OPTIMAL ∧
    (finalPair 10 lpC1).map (fun p => p.1.objective.constantVal) = some 17 ∧
    (finalPair 10 lpC1).map (fun p => basicValueAtZero p.1 "x1") = some (some ⟨[], [1]⟩) ∧
    (finalPair 10 lpC1).map (fun p => basicValueAtZero p.1 "x2") = some (some ⟨[], [5]⟩) := by
  decide

/-- Claim C2: whenever `isUnbounded()` holds, `next()` returns `UNBOUNDED`
and leaves the dictionary unchanged (feasibility is irrelevant); in
particular, for objective `x1` with single constraint `w1 = 5 + x1`, the
first pair produced by `solve()` has status `UNBOUNDED` with the dictionary
unchanged. -/
theorem claim_C2 :
    (∀ lp : LinearProgram, isUnbounded lp = true → nextStep lp = some (.UNBOUNDED, lp)) ∧
    (mkLP 1 lpUnb.objective lpUnb.constraints = some lpUnb ∧ isUnbounded lpUnb = true ∧
      solveSteps 1 lpUnb = some [(lpUnb, .UNBOUNDED)]) := by
  constructor
  · intro lp h
    simp [nextStep, h]
  · refine ⟨by decide, by decide, by decide⟩

/-- Witness for claim C2 at the concrete unbounded program. -/
theorem claim_C2_witness : nextStep lpUnb = some (.UNBOUNDED, lpUnb) :=
  claim_C2.1 lpUnb (by decide)

/-- Claim C3 counterexample: `lpOptInf` satisfies `isOptimal()` but is
infeasible, and `next()` returns `HELP_NEEDED`, not `OPTIMAL`. -/
theorem claim_C3_counterexample :
    isOptimal lpOptInf = true ∧ nextStep lpOptInf = some (.HELP_NEEDED, lpOptInf) ∧
    (Result.HELP_NEEDED ≠ Result.OPTIMAL) := by decide

/-- Claim C3 (amended): for every feasible dictionary on which `isOptimal()`
holds, one additional `next()` call returns `OPTIMAL` and leaves the
dictionary (objective, constraints, basic and non-basic sets) unchanged —
only the strategy's history is cleared. -/
theorem claim_C3 :
    ∀ lp : LinearProgram, isFeasible lp = true → isOptimal lp = true →
      nextStep lp = some (.OPTIMAL, { lp with history := [] }) := by
  intro lp hf hopt
  have hunb : isUnbounded lp = false := isUnbounded_false_of_isOptimal hopt
  have hpe : pickEnter lp = .ok .optimal :=
    pickEnterAux_all_nonpos _ _ (coeffOf_nonpos (all_terms_nonpos hopt)) _
  simp [nextStep, hunb, hf, hpe, clearHistory]

/-- Witness for claim C3 at a concrete feasible optimal program. -/
theorem claim_C3_witness :
    nextStep lpOptFeas = some (.OPTIMAL, { lpOptFeas with history := [] }) :=
  claim_C3 lpOptFeas (by decide) (by decide)

/-- Claim C5: on the feasible dictionary `lpCrash` (objective `x1`,
constraints `w1 = 1 - x1`, `w2 = -x1`), the entering-candidate search throws
(reads `constants[0]` of the empty constants list of `w2` in its comparison
branch) instead of producing the candidate with minimal bound. -/
theorem claim_C5_bug :
    mkLP 1 lpCrash.objective lpCrash.constraints = some lpCrash ∧
    isFeasible lpCrash = true ∧
    pickEnter lpCrash = .error () := by decide

/-- Claim C7: the cycling-avoidance `pick` on a non-empty candidate list
`c0 :: rest`: with a zero first bound and the signature already in the
history, the second candidate is returned when one exists and otherwise the
first; with a zero bound and a new signature, the first candidate is
returned and the signature recorded; with a non-zero bound, the first
candidate is returned and the history cleared. -/
theorem claim_C7 :
    ∀ (c0 : Candidate) (rest : List Candidate) (obj : Expression) (hist : List Expression),
      (c0.bound.veq 0 = true → obj ∈ hist → ∀ c1 rest', rest = c1 :: rest' →
        cyclingPick c0 rest obj hist = (c1, hist)) ∧
      (c0.bound.veq 0 = true → obj ∈ hist → rest = [] →
        cyclingPick c0 rest obj hist = (c0, hist)) ∧
      (c0.bound.veq 0 = true → obj ∉ hist →
        cyclingPick c0 rest obj hist = (c0, hist ++ [obj])) ∧
      (c0.bound.veq 0 = false →
        cyclingPick c0 rest obj hist = (c0, [])) := by
  intro c0 rest obj hist
  refine ⟨?_, ?_, ?_, ?_⟩
  · intro h0 hmem c1 rest' hrest
    subst hrest
    simp [cyclingPick, h0, hmem]
  · intro h0 hmem hrest
    subst hrest
    simp [cyclingPick, h0, hmem]
  · intro h0 hmem
    simp [cyclingPick, h0, hmem]
  · intro h0
    simp [cyclingPick, h0]

/-- Witness for claim C7: a degenerate first candidate with a repeated
signature makes `pick` choose the second candidate. -/
theorem claim_C7_witness :
    cyclingPick ⟨"x1", 0, 0⟩ [⟨"x2", 1, 0⟩] ⟨[], []⟩ [⟨[], []⟩] = (⟨"x2", 1, 0⟩, [⟨[], []⟩]) :=
  (claim_C7 ⟨"x1", 0, 0⟩ [⟨"x2", 1, 0⟩] ⟨[], []⟩ [⟨[], []⟩]).1 (by decide) (by decide)
    ⟨"x2", 1, 0⟩ [] rfl

/-- Claim C9: when the auxiliary solve's last pair is `OPTIMAL` with optimal
value not 0, `solve` emits exactly one final pair with status `INFEASIBLE`
and stops; in particular the program with objective `x1` and constraint
`w1 = -1 - x1` yields `HELP_NEEDED` and then, after the auxiliary phase, a
final `INFEASIBLE` pair. -/
theorem claim_C9 :
    (∀ (cont : LinearProgram → Option (List (LinearProgram × Result)))
       (lp1 hlast : LinearProgram) (hpairs : List (LinearProgram × Result)),
      hpairs.getLast? = some (hlast, .OPTIMAL) →
      (getCurrentSolution hlast).veq 0 = false →
      finishHelper cont lp1 hpairs =
        some (hpairs ++
          [(clearHistory (hpairs.foldl (fun l p => applyEmit l p.2) lp1), .INFEASIBLE)])) ∧
    runStatuses 5 lpInf =
      some [.HELP_NEEDED, .HELPER_CREATED, .HELPER_FEASIBLE, .OPTIMAL, .INFEASIBLE] := by
  constructor
  · intro cont lp1 hlast hpairs hlastEq hsol
    simp [finishHelper, hlastEq, hsol]
  · decide

/-- Witness for claim C9's general clause at a concrete auxiliary result. -/
theorem claim_C9_witness :
    finishHelper (fun _ => none) lpAuxNeg [(lpAuxNeg, .OPTIMAL)] =
      some [(lpAuxNeg, .OPTIMAL), (lpAuxNeg, .INFEASIBLE)] :=
  claim_C9.1 (fun _ => none) lpAuxNeg lpAuxNeg [(lpAuxNeg, .OPTIMAL)] (by decide) (by decide)

/-- Claim C10: for every dictionary that is infeasible and not unbounded,
`next()` returns `HELP_NEEDED` and leaves the state entirely unchanged. -/
theorem claim_C10 :
    ∀ lp : LinearProgram, isFeasible lp = false → isUnbounded lp = false →
      nextStep lp = some (.HELP_NEEDED, lp) := by
  intro lp hf hu
  simp [nextStep, hf, hu]

/-- Witness for claim C10 at a concrete infeasible, bounded program. -/
theorem claim_C10_witness : nextStep lpInf = some (.HELP_NEEDED, lpInf) :=
  claim_C10 lpInf (by decide) (by decide)

/-! ## Claim C6: the contradiction branch is unreachable -/

theorem innerScan_some_ne_ok_none (v : String) :
    ∀ (l : List (Nat × Equation)) (best : Candidate),
      innerScan v l (some best) ≠ .ok none := by
  intro l
  induction l with
  | nil => intro best h; simp [innerScan] at h
  | cons p rest ih =>
    intro best h
    obtain ⟨i, eq⟩ := p
    simp only [innerScan] at h
    split at h
    · split at h
      · simp at h
      · split at h
        · exact ih _ h
        · exact ih _ h
    · exact ih _ h

theorem innerScan_ok_none (v : String) :
    ∀ (l : List (Nat × Equation)) (acc : Option Candidate),
      innerScan v l acc = .ok none →
      ∀ p ∈ l, ¬(coeffOf (Prod.snd p).rhs.terms v < 0) := by
  intro l
  induction l with
  | nil => intro acc _ p hp; cases hp
  | cons q rest ih =>
    intro acc h p hp
    obtain ⟨i, eq⟩ := q
    simp only [innerScan] at h
    rcases List.mem_cons.mp hp with hhd | htl
    · subst hhd
      intro hneg
      rw [if_pos hneg] at h
      cases acc with
      | none => exact innerScan_some_ne_ok_none v rest _ h
      | some best =>
        simp only at h
        split at h
        · simp at h
        · split at h
          · exact innerScan_some_ne_ok_none v rest _ h
          · exact innerScan_some_ne_ok_none v rest _ h
    · split at h
      · cases acc with
        | none => exact absurd h (innerScan_some_ne_ok_none v rest _)
        | some best =>
          simp only at h
          split at h
          · simp at h
          · split at h
            · exact absurd h (innerScan_some_ne_ok_none v rest _)
            · exact absurd h (innerScan_some_ne_ok_none v rest _)
      · exact ih _ h p htl

theorem pickEnterAux_unbounded_inv (obj : Expression) (icons : List (Nat × Equation)) :
    ∀ (vs : List String) (acc : List Candidate),
      pickEnterAux obj icons vs acc = .ok .unbounded →
      ∃ v ∈ vs, coeffOf obj.terms v > 0 ∧ innerScan v icons none = .ok none := by
  intro vs
  induction vs with
  | nil =>
    intro acc h
    simp only [pickEnterAux] at h
    split at h <;> simp at h
  | cons v vs ih =>
    intro acc h
    simp only [pickEnterAux] at h
    split at h
    · rename_i hpos
      cases hscan : innerScan v icons none with
      | error e => rw [hscan] at h; simp at h
      | ok o =>
        cases o with
        | none => exact ⟨v, List.mem_cons_self v vs, hpos, hscan⟩
        | some cand =>
          rw [hscan] at h
          obtain ⟨v', hv', hrest⟩ := ih _ h
          exact ⟨v', List.mem_cons_of_mem v hv', hrest⟩
    · obtain ⟨v', hv', hrest⟩ := ih _ h
      exact ⟨v', List.mem_cons_of_mem v hv', hrest⟩

theorem enumFrom_mem_of_mem {α} {a : α} :
    ∀ (l : List α) (n : Nat), a ∈ l → ∃ i, (i, a) ∈ enumFrom n l := by
  intro l
  induction l with
  | nil => intro n h; cases h
  | cons b rest ih =>
    intro n h
    rcases List.mem_cons.mp h with hhd | htl
    · subst hhd; exact ⟨n, List.mem_cons_self _ _⟩
    · obtain ⟨i, hi⟩ := ih (n + 1) htl
      exact ⟨i, List.mem_cons_of_mem _ hi⟩

/-- Claim C6: whenever `isUnbounded()` is false, the entering-candidate
search never returns the unbounded status, so the fatal contradiction branch
of `next()` is unreachable. -/
theorem claim_C6 :
    ∀ lp : LinearProgram, isUnbounded lp = false →
      pickEnter lp ≠ .ok .unbounded := by
  intro lp hunb h
  obtain ⟨v, _, hpos, hscan⟩ := pickEnterAux_unbounded_inv _ _ _ _ h
  unfold coeffOf at hpos
  cases hf : lp.objective.terms.find? (fun t => t.1 == v) with
  | none => rw [hf] at hpos; exact absurd ((Fraction.lt_iff _ _).mp hpos) (by rw [toRat_zero]; simp)
  | some t =>
    rw [hf] at hpos
    have htv : t.1 = v := by
      have := List.find?_some hf
      simpa using this
    have hmem := List.mem_of_find?_eq_some hf
    unfold isUnbounded at hunb
    rw [List.any_eq_false] at hunb
    have ht := hunb t hmem
    rw [Bool.and_eq_true, not_and] at ht
    have hpos' : t.2 > 0 := hpos
    have hall := ht (decide_eq_true hpos')
    rw [List.all_eq_true] at hall
    push_neg at hall
    obtain ⟨c, hc, hge⟩ := hall
    have hge' : ¬(coeffOf c.rhs.terms t.1 ≥ 0) := fun hh => hge (decide_eq_true hh)
    have hlt : coeffOf c.rhs.terms t.1 < 0 := by
      rw [Fraction.lt_iff, toRat_zero]
      have : ¬(toRat 0 ≤ toRat (coeffOf c.rhs.terms t.1)) := by
        intro hle
        exact hge' ((Fraction.le_iff _ _).mpr hle)
      rw [toRat_zero] at this
      exact lt_of_not_le this
    obtain ⟨i, hi⟩ := enumFrom_mem_of_mem lp.constraints 0 hc
    have := innerScan_ok_none v _ _ hscan (i, c) hi
    rw [htv] at hlt
    exact this hlt

/-- Witness for claim C6 at a concrete bounded program. -/
theorem claim_C6_witness : pickEnter lpC1 ≠ .ok .unbounded :=
  claim_C6 lpC1 (by decide)

/-! ## Value-level lemmas about expressions, for claim C8 -/

theorem toRat_ite_key (v : String) (t : String × Fraction) :
    toRat (if t.1 = v then t.2 else 0) = if t.1 = v then toRat t.2 else 0 := by
  by_cases h : t.1 = v
  · rw [if_pos h, if_pos h]
  · rw [if_neg h, if_neg h, toRat_zero]

theorem keySum_insertTerm (v : String) :
    ∀ (ts : List (String × Fraction)) (t : String × Fraction),
      toRat (keySum v (insertTerm ts t)) =
        toRat (keySum v ts) + (if t.1 = v then toRat t.2 else 0) := by
  intro ts
  induction ts with
  | nil =>
    intro t
    simp only [insertTerm, keySum]
    rw [toRat_add, toRat_zero, toRat_ite_key]
    ring
  | cons u ts ih =>
    intro t
    simp only [insertTerm]
    by_cases hu : u.1 = t.1
    · rw [if_pos hu]
      simp only [keySum]
      rw [toRat_add, toRat_add]
      by_cases hv : u.1 = v
      · rw [if_pos hv, if_pos (hu ▸ hv), toRat_add]
        have : (if t.1 = v then toRat t.2 else 0) = toRat t.2 := by
          rw [if_pos (hu ▸ hv)]
        rw [this]
        ring
      · rw [if_neg hv, if_neg (fun h => hv (hu.symm ▸ h) : ¬u.1 = v)]
        have : (if t.1 = v then toRat t.2 else 0) = 0 := by
          rw [if_neg (fun h => hv (hu ▸ h))]
        rw [this, toRat_zero]
        ring
    · rw [if_neg hu]
      simp only [keySum]
      rw [toRat_add, toRat_add, ih t]
      ring

theorem keySum_foldl (v : String) :
    ∀ (ts acc : List (String × Fraction)),
      toRat (keySum v (ts.foldl insertTerm acc)) =
        toRat (keySum v acc) + toRat (keySum v ts) := by
  intro ts
  induction ts with
  | nil => intro acc; simp only [List.foldl, keySum]; rw [toRat_zero]; ring
  | cons t ts ih =>
    intro acc
    simp only [List.foldl, keySum]
    rw [ih (insertTerm acc t), keySum_insertTerm, toRat_add, toRat_ite_key]
    ring

theorem keySum_filter (v : String) :
    ∀ ts : List (String × Fraction),
      toRat (keySum v (ts.filter (fun t => !t.2.veq 0))) = toRat (keySum v ts) := by
  intro ts
  induction ts with
  | nil => rfl
  | cons t ts ih =>
    simp only [List.filter]
    cases hz : (!t.2.veq 0) with
    | false =>
      have hz' : t.2.veq 0 = true := by
        cases h : t.2.veq 0 <;> simp [h] at hz ⊢
      have ht0 : toRat t.2 = 0 := by
        have := (Fraction.veq_iff t.2 0).mp hz'
        rwa [toRat_zero] at this
      simp only [keySum]
      rw [ih, toRat_add, toRat_ite_key]
      by_cases hv : t.1 = v
      · rw [if_pos hv, ht0]; ring
      · rw [if_neg hv]; ring
    | true =>
      simp only [keySum]
      rw [toRat_add, toRat_add, ih]

theorem keySum_simplified (v : String) (ts : List (String × Fraction)) (c : Fraction) :
    toRat (keySum v (Expression.simplified ts c).terms) = toRat (keySum v ts) := by
  unfold Expression.simplified combineTerms
  simp only
  rw [keySum_filter, keySum_foldl]
  simp only [keySum]
  rw [toRat_zero]
  ring

theorem keySum_append (v : String) :
    ∀ ts1 ts2 : List (String × Fraction),
      toRat (keySum v (ts1 ++ ts2)) = toRat (keySum v ts1) + toRat (keySum v ts2) := by
  intro ts1 ts2
  induction ts1 with
  | nil => simp only [List.nil_append, keySum]; rw [toRat_zero]; ring
  | cons t ts ih =>
    simp only [List.cons_append, keySum, List.append_eq]
    rw [toRat_add, toRat_add, ih]
    ring

theorem keySum_zero_of_not_mem (v : String) :
    ∀ ts : List (String × Fraction), (∀ t ∈ ts, t.1 ≠ v) → toRat (keySum v ts) = 0 := by
  intro ts
  induction ts with
  | nil => intro _; exact toRat_zero
  | cons t ts ih =>
    intro h
    simp only [keySum]
    rw [toRat_add, toRat_ite_key, if_neg (h t (List.mem_cons_self _ _)),
      ih (fun u hu => h u (List.mem_cons_of_mem _ hu))]
    ring

theorem constantVal_simplified (ts : List (String × Fraction)) (c : Fraction) :
    toRat (Expression.simplified ts c).constantVal = toRat c := by
  unfold Expression.simplified Expression.constantVal getConstant
  by_cases hz : c.veq 0 = true
  · rw [if_pos hz]
    have := (Fraction.veq_iff c 0).mp hz
    rw [toRat_zero] at this
    simpa [toRat_zero] using this.symm
  · rw [if_neg hz]
    rfl

theorem feas_simplified (ts : List (String × Fraction)) (c : Fraction) :
    ((!(Expression.simplified ts c).constants.isEmpty &&
        decide (getConstant (Expression.simplified ts c).constants ≥ 0))
      || (Expression.simplified ts c).constants.isEmpty) = true ↔ 0 ≤ toRat c := by
  unfold Expression.simplified getConstant
  by_cases hz : c.veq 0 = true
  · rw [if_pos hz]
    have h0 : toRat c = 0 := by
      have := (Fraction.veq_iff c 0).mp hz
      rwa [toRat_zero] at this
    simp [h0]
  · rw [if_neg hz]
    simp only [List.isEmpty_cons, Bool.not_false, Bool.true_and, Bool.or_false, List.headD]
    rw [decide_eq_true_eq, ge_iff_le, Fraction.le_iff, toRat_zero]

theorem evalTerms_const_single (h : String) (f : Expression) :
    ∀ ts : List (String × Fraction),
      toRat (evalTerms [(h, f)] ts).2 = toRat (keySum h ts) * toRat f.constantVal := by
  intro ts
  induction ts with
  | nil => simp only [evalTerms, keySum]; rw [toRat_zero]; ring
  | cons t ts ih =>
    simp only [evalTerms, lookupSub, List.find?]
    by_cases ht : t.1 = h
    · have : (((h, f) : String × Expression).1 == t.1) = true := by simp [ht]
      rw [this]
      simp only [Option.map_some']
      rw [toRat_add, toRat_mul, ih]
      simp only [keySum]
      rw [toRat_add, toRat_ite_key, if_pos ht]
      ring
    · have : (((h, f) : String × Expression).1 == t.1) = false := by
        simp only [beq_eq_false_iff_ne, ne_eq]
        exact fun hh => ht hh.symm
      rw [this]
      simp only [List.find?, Option.map_none']
      rw [ih]
      simp only [keySum]
      rw [toRat_add, toRat_ite_key, if_neg ht]
      ring

theorem eval_constantVal_single (e : Expression) (h : String) (f : Expression) :
    toRat (e.eval [(h, f)]).constantVal =
      toRat e.constantVal + toRat (keySum h e.terms) * toRat f.constantVal := by
  unfold Expression.eval
  rw [constantVal_simplified, toRat_add, evalTerms_const_single]

/-! ## Index and argmin lemmas, for claim C8 -/

theorem constantVal_def (e : Expression) : e.constantVal = getConstant e.constants := rfl

theorem enumFrom_mem_getElem {α} :
    ∀ (l : List α) (n i : Nat) (a : α), (i, a) ∈ enumFrom n l →
      ∃ k, i = n + k ∧ l[k]? = some a := by
  intro l
  induction l with
  | nil => intro n i a h; cases h
  | cons b rest ih =>
    intro n i a h
    rcases List.mem_cons.mp h with hhd | htl
    · have h1 : i = n := congrArg Prod.fst hhd
      have h2 : a = b := congrArg Prod.snd hhd
      subst h1
      subst h2
      exact ⟨0, by omega, by simp⟩
    · obtain ⟨k, hk, hget⟩ := ih (n + 1) i a htl
      exact ⟨k + 1, by omega, by simpa using hget⟩

theorem argminE_spec :
    ∀ (l : List (Nat × Equation)) (acc : Option (Nat × Equation)) (res : Nat × Equation),
      argminE l acc = some res →
      (res ∈ l ∨ acc = some res) ∧
      (∀ p ∈ l, toRat (getConstant res.2.rhs.constants) ≤ toRat (getConstant p.2.rhs.constants)) ∧
      (∀ b, acc = some b →
        toRat (getConstant res.2.rhs.constants) ≤ toRat (getConstant b.2.rhs.constants)) := by
  intro l
  induction l with
  | nil =>
    intro acc res h
    simp only [argminE] at h
    refine ⟨Or.inr h, fun p hp => absurd hp (List.not_mem_nil p), ?_⟩
    intro b hb
    rw [h] at hb
    cases hb
    exact le_refl _
  | cons q rest ih =>
    intro acc res h
    obtain ⟨i, c⟩ := q
    cases acc with
    | none =>
      simp only [argminE] at h
      obtain ⟨hmem, hall, hacc⟩ := ih (some (i, c)) res h
      refine ⟨?_, ?_, ?_⟩
      · rcases hmem with hm | hm
        · exact Or.inl (List.mem_cons_of_mem _ hm)
        · exact Or.inl (by rw [Option.some.injEq] at hm; rw [← hm]; exact List.mem_cons_self _ _)
      · intro p hp
        rcases List.mem_cons.mp hp with hhd | htl
        · subst hhd; exact hacc (i, c) rfl
        · exact hall p htl
      · intro b hb; cases hb
    | some bc =>
      obtain ⟨b0, cb⟩ := bc
      simp only [argminE] at h
      split at h
      · rename_i hlt
        obtain ⟨hmem, hall, hacc⟩ := ih (some (i, c)) res h
        have hres_le_c := hacc (i, c) rfl
        have hc_lt_cb := (Fraction.lt_iff (getConstant c.rhs.constants)
          (getConstant cb.rhs.constants)).mp hlt
        refine ⟨?_, ?_, ?_⟩
        · rcases hmem with hm | hm
          · exact Or.inl (List.mem_cons_of_mem _ hm)
          · exact Or.inl (by rw [Option.some.injEq] at hm; rw [← hm]; exact List.mem_cons_self _ _)
        · intro p hp
          rcases List.mem_cons.mp hp with hhd | htl
          · subst hhd; exact hres_le_c
          · exact hall p htl
        · intro b hb
          rw [Option.some.injEq] at hb
          subst hb
          exact le_of_lt (lt_of_le_of_lt hres_le_c hc_lt_cb)
      · rename_i hlt
        obtain ⟨hmem, hall, hacc⟩ := ih (some (b0, cb)) res h
        have hcb_le_c : toRat (getConstant cb.rhs.constants) ≤
            toRat (getConstant c.rhs.constants) := by
          have hnot : ¬(toRat (getConstant c.rhs.constants) <
              toRat (getConstant cb.rhs.constants)) :=
            fun hh => hlt ((Fraction.lt_iff (getConstant c.rhs.constants)
              (getConstant cb.rhs.constants)).mpr hh)
          exact le_of_not_lt hnot
        refine ⟨?_, ?_, ?_⟩
        · rcases hmem with hm | hm
          · exact Or.inl (List.mem_cons_of_mem _ hm)
          · exact Or.inr hm
        · intro p hp
          rcases List.mem_cons.mp hp with hhd | htl
          · subst hhd
            exact le_trans (hacc (b0, cb) rfl) hcb_le_c
          · exact hall p htl
        · exact hacc

/-! ## The helper pivot restores feasibility (claim C8) -/

theorem mapIdxFrom_mem {α β} (f : Nat → α → β) :
    ∀ (l : List α) (n : Nat) (b : β), b ∈ mapIdxFrom f n l →
      ∃ k a, l[k]? = some a ∧ b = f (n + k) a := by
  intro l
  induction l with
  | nil => intro n b h; cases h
  | cons x rest ih =>
    intro n b h
    rcases List.mem_cons.mp h with hhd | htl
    · exact ⟨0, x, by simp, by simpa using hhd⟩
    · obtain ⟨k, a, hka, hfa⟩ := ih (n + 1) b htl
      refine ⟨k + 1, a, by simpa using hka, ?_⟩
      rw [hfa]
      congr 1
      omega

theorem doPivot_eq_of_get (lp : LinearProgram) (v : String) (i : Nat) (c : Equation)
    (h : lp.constraints[i]? = some c) :
    doPivot lp v i = { lp with
      constraints := mapIdxFrom (fun j cc =>
        if j = i then ⟨v, 1, c.solveFor v⟩
        else ⟨cc.lhsVar, cc.lhsCoeff, cc.rhs.eval [(v, c.solveFor v)]⟩) 0 lp.constraints,
      nonBasics := setAdd (setDelete lp.nonBasics v) c.lhsVar,
      basics := setAdd (setDelete lp.basics c.lhsVar) v,
      objective := lp.objective.eval [(v, c.solveFor v)] } := by
  unfold doPivot
  rw [h]

theorem solveFor_constantVal (eq : Equation) (x : String) :
    toRat (eq.solveFor x).constantVal =
      toRat eq.rhs.constantVal /
        toRat ((if eq.lhsVar = x then eq.lhsCoeff else 0) - keySum x eq.rhs.terms) := by
  simp only [Equation.solveFor]
  rw [constantVal_simplified, toRat_div]

theorem simplified_constants_shape (ts : List (String × Fraction)) (c : Fraction) :
    (Expression.simplified ts c).constants = [] ∨
      ∃ d, (Expression.simplified ts c).constants = [d] := by
  have hc : (Expression.simplified ts c).constants = if c.veq 0 then [] else [c] := rfl
  rw [hc]
  split
  · exact Or.inl rfl
  · exact Or.inr ⟨c, rfl⟩

theorem solveFor_shape (eq : Equation) (x : String) :
    (eq.solveFor x).constants = [] ∨ ∃ d, (eq.solveFor x).constants = [d] := by
  simp only [Equation.solveFor]
  exact simplified_constants_shape _ _

theorem eval_shape (e : Expression) (σ : List (String × Expression)) :
    (e.eval σ).constants = [] ∨ ∃ d, (e.eval σ).constants = [d] := by
  simp only [Expression.eval]
  exact simplified_constants_shape _ _

theorem feasRhs_of_shape (e : Expression)
    (hshape : e.constants = [] ∨ ∃ d, e.constants = [d])
    (hnn : 0 ≤ toRat e.constantVal) :
    ((!e.constants.isEmpty && decide (getConstant e.constants ≥ 0))
      || e.constants.isEmpty) = true := by
  rcases hshape with h0 | ⟨d, hd⟩
  · simp [h0]
  · have hc : e.constantVal = d := by rw [constantVal_def, hd]; rfl
    rw [hc] at hnn
    have hge : getConstant [d] ≥ 0 := by
      rw [ge_iff_le, Fraction.le_iff, toRat_zero]
      exact hnn
    rw [hd]
    simp [hge]

theorem addHelper_constantVal (e : Expression) :
    toRat (addHelper e).constantVal = toRat e.constantVal := by
  unfold addHelper
  rw [constantVal_simplified]

theorem keySum_addHelper (e : Expression) (h : ∀ t ∈ e.terms, t.1 ≠ helperName) :
    toRat (keySum helperName (addHelper e).terms) = 1 := by
  unfold addHelper
  rw [keySum_simplified, keySum_append, keySum_zero_of_not_mem helperName e.terms h]
  simp only [keySum]
  simp [toRat_add, toRat_zero, toRat_one]

theorem solveFor_addHelper_const (c : Equation)
    (hlhs : c.lhsVar ≠ helperName)
    (hterms : ∀ t ∈ c.rhs.terms, t.1 ≠ helperName) :
    toRat ((⟨c.lhsVar, c.lhsCoeff, addHelper c.rhs⟩ : Equation).solveFor helperName).constantVal
      = -(toRat c.rhs.constantVal) := by
  rw [solveFor_constantVal]
  simp only
  rw [if_neg hlhs, toRat_sub, toRat_zero, keySum_addHelper c.rhs hterms,
    addHelper_constantVal]
  ring

theorem doPivot_helper_feasible (hlp : LinearProgram) (cons : List Equation) (idx : Nat)
    (cmin : Equation)
    (hcons : hlp.constraints = cons.map (fun c => ⟨c.lhsVar, c.lhsCoeff, addHelper c.rhs⟩))
    (hidx : cons[idx]? = some cmin)
    (hmin : ∀ c ∈ cons,
      toRat (getConstant cmin.rhs.constants) ≤ toRat (getConstant c.rhs.constants))
    (hm0 : toRat (getConstant cmin.rhs.constants) ≤ 0)
    (hfresh : ∀ c ∈ cons, c.lhsVar ≠ helperName ∧ ∀ t ∈ c.rhs.terms, t.1 ≠ helperName) :
    isFeasible (doPivot hlp helperName idx) = true := by
  have hcm_mem : cmin ∈ cons := List.getElem?_mem hidx
  have hget : hlp.constraints[idx]? = some ⟨cmin.lhsVar, cmin.lhsCoeff, addHelper cmin.rhs⟩ := by
    rw [hcons, List.getElem?_map, hidx]
    rfl
  rw [doPivot_eq_of_get hlp helperName idx _ hget]
  have hnewc : toRat ((⟨cmin.lhsVar, cmin.lhsCoeff, addHelper cmin.rhs⟩ : Equation).solveFor
      helperName).constantVal = -(toRat cmin.rhs.constantVal) :=
    solveFor_addHelper_const cmin (hfresh cmin hcm_mem).1 (hfresh cmin hcm_mem).2
  unfold isFeasible
  simp only
  rw [List.all_eq_true]
  intro c' hc'
  obtain ⟨k, a, hka, hfa⟩ := mapIdxFrom_mem _ _ 0 c' hc'
  rw [hcons, List.getElem?_map] at hka
  cases hck : cons[k]? with
  | none => rw [hck] at hka; cases hka
  | some ck =>
    rw [hck, Option.map_some'] at hka
    have hck_mem : ck ∈ cons := List.getElem?_mem hck
    have ha : a = ⟨ck.lhsVar, ck.lhsCoeff, addHelper ck.rhs⟩ := by
      injection hka with hh
      exact hh.symm
    rw [Nat.zero_add] at hfa
    by_cases hk : k = idx
    · rw [hfa, if_pos hk]
      apply feasRhs_of_shape
      · exact solveFor_shape _ _
      · rw [hnewc]
        have hm0' : toRat cmin.rhs.constantVal ≤ 0 := hm0
        linarith
    · rw [hfa, if_neg hk]
      apply feasRhs_of_shape
      · exact eval_shape _ _
      · rw [ha]
        simp only
        rw [eval_constantVal_single, addHelper_constantVal,
          keySum_addHelper ck.rhs (hfresh ck hck_mem).2, hnewc]
        have h1 : toRat cmin.rhs.constantVal ≤ toRat ck.rhs.constantVal := hmin ck hck_mem
        nlinarith [h1]

theorem mkLP_inv {vc : Int} {obj : Expression} {cons : List Equation} {lp : LinearProgram}
    (h : mkLP vc obj cons = some lp) :
    lp = ⟨vc, nonBasicsOf obj cons, obj, cons, basicsOf cons, none, []⟩ ∧
    vc > 0 ∧ ((nonBasicsOf obj cons).length : Int) = vc := by
  unfold mkLP at h
  split at h
  · split at h
    · split at h
      · injection h with hh
        exact ⟨hh.symm, by assumption, by assumption⟩
      · cases h
    · cases h
  · cases h

/-- The helper-name-collision program: variables = 2, objective `x1`,
constraint `w1 = -1 - x1 - 2 helperVariable`, where `helperVariable` is an
ordinary user variable that collides with the two-phase resolver's helper
name. -/
def lpCollide : LinearProgram :=
  ⟨2, ["x1", "helperVariable"], ⟨[("x1", 1)], []⟩,
   [⟨"w1", 1, ⟨[("x1", -1), ("helperVariable", -2)], [-1]⟩⟩], ["w1"], none, []⟩

/-- The auxiliary dictionary built for `lpInf` (used by the claim C8
witness). -/
def hlpInf : LinearProgram :=
  ⟨2, ["x1"], ⟨[("helperVariable", -1)], []⟩,
   [⟨"w1", 1, ⟨[("x1", -1), ("helperVariable", 1)], [-1]⟩⟩], ["w1"],
   some "helperVariable", []⟩

/-- Claim C8 counterexample: the infeasible program `lpCollide` is a valid
construction, yet after the helper phase's first pivot the auxiliary
dictionary is STILL infeasible at the `HELPER_FEASIBLE` yield, because the
user variable named `helperVariable` collides with the helper. -/
theorem claim_C8_counterexample :
    mkLP 2 lpCollide.objective lpCollide.constraints = some lpCollide ∧
    isFeasible lpCollide = false ∧
    (infeasibleHelperStart lpCollide).map
      (fun p => p.1.map (fun q => (q.2, isFeasible q.1))) =
      some [(.HELPER_CREATED, false), (.HELPER_FEASIBLE, false)] := by decide

/-- Claim C8 (amended): for every infeasible dictionary whose auxiliary
construction succeeds and in which the name `helperVariable` does not occur,
the two-phase resolver builds the auxiliary dictionary (helper added to each
constraint's right-hand side, objective set to the negated helper, variable
count incremented, yielded with `HELPER_CREATED` before any pivot), pivots
the helper in against a constraint with the smallest right-hand-side
constant, and the auxiliary dictionary is feasible at the `HELPER_FEASIBLE`
yield. -/
theorem claim_C8 :
    ∀ (lp hlp : LinearProgram) (idx : Nat),
      isFeasible lp = false →
      mkHelperLP lp = some (hlp, idx) →
      (∀ c ∈ lp.constraints, c.lhsVar ≠ helperName ∧ ∀ t ∈ c.rhs.terms, t.1 ≠ helperName) →
      (hlp.objective = ⟨[(helperName, -1)], []⟩ ∧
       hlp.varCount = lp.varCount + 1 ∧
       hlp.helper = some helperName ∧
       hlp.constraints =
         lp.constraints.map (fun c => ⟨c.lhsVar, c.lhsCoeff, addHelper c.rhs⟩) ∧
       infeasibleHelperStart lp =
         some ([(hlp, .HELPER_CREATED), (doPivot hlp helperName idx, .HELPER_FEASIBLE)],
           doPivot hlp helperName idx)) ∧
      (∃ cmin, lp.constraints[idx]? = some cmin ∧
        ∀ c ∈ lp.constraints,
          toRat (getConstant cmin.rhs.constants) ≤ toRat (getConstant c.rhs.constants)) ∧
      isFeasible (doPivot hlp helperName idx) = true := by
  intro lp hlp idx hfeas hmk hfresh
  have hstart : infeasibleHelperStart lp =
      some ([(hlp, .HELPER_CREATED), (doPivot hlp helperName idx, .HELPER_FEASIBLE)],
        doPivot hlp helperName idx) := by
    unfold infeasibleHelperStart
    rw [hmk]
  have hmk' := hmk
  unfold mkHelperLP at hmk'
  split at hmk'
  · cases hmk'
  · rename_i hlp0 hmk0
    split at hmk'
    · cases hmk'
    · rename_i idx0 cmin0 harg
      have hpair := hmk'
      injection hpair with hpair1
      have hhlp : hlp = { hlp0 with
          helper := some helperName,
          varCount := hlp0.varCount + 1,
          objective := ⟨[(helperName, -1)], []⟩,
          constraints :=
            lp.constraints.map (fun c => ⟨c.lhsVar, c.lhsCoeff, addHelper c.rhs⟩) } :=
        (congrArg Prod.fst hpair1).symm
      have hidx : idx = idx0 := (congrArg Prod.snd hpair1).symm
      obtain ⟨hlp0eq, _, _⟩ := mkLP_inv hmk0
      obtain ⟨hmem0, hall0, _⟩ := argminE_spec _ _ _ harg
      have hmem0' : (idx0, cmin0) ∈ enumFrom 0 lp.constraints := by
        rcases hmem0 with hm | hm
        · exact hm
        · cases hm
      obtain ⟨k, hk0, hget0⟩ := enumFrom_mem_getElem _ 0 idx0 cmin0 hmem0'
      have hget : lp.constraints[idx0]? = some cmin0 := by
        have hik : idx0 = k := by omega
        rw [hik]
        exact hget0
      have hminall : ∀ c ∈ lp.constraints,
          toRat (getConstant cmin0.rhs.constants) ≤ toRat (getConstant c.rhs.constants) := by
        intro c hc
        obtain ⟨i, hi⟩ := enumFrom_mem_of_mem lp.constraints 0 hc
        exact hall0 (i, c) hi
      have hex : ∃ c0 ∈ lp.constraints,
          toRat (getConstant c0.rhs.constants) < 0 := by
        by_contra hno
        push_neg at hno
        have hft : isFeasible lp = true := by
          unfold isFeasible
          rw [List.all_eq_true]
          intro c hc
          by_cases hE : c.rhs.constants.isEmpty
          · simp [hE]
          · have hge : getConstant c.rhs.constants ≥ 0 := by
              rw [ge_iff_le, Fraction.le_iff, toRat_zero]
              exact hno c hc
            simp [hE, hge]
        rw [hft] at hfeas
        cases hfeas
      obtain ⟨c0, hc0, hlt0⟩ := hex
      have hm0 : toRat (getConstant cmin0.rhs.constants) ≤ 0 :=
        le_of_lt (lt_of_le_of_lt (hminall c0 hc0) hlt0)
      subst hhlp
      subst hidx
      refine ⟨⟨rfl, ?_, rfl, rfl, hstart⟩, ⟨cmin0, hget, hminall⟩, ?_⟩
      · rw [hlp0eq]
      · exact doPivot_helper_feasible _ lp.constraints idx cmin0 rfl hget hminall hm0 hfresh

/-- Witness for claim C8 at the concrete infeasible program `lpInf`. -/
theorem claim_C8_witness : isFeasible (doPivot hlpInf helperName 0) = true :=
  (claim_C8 lpInf hlpInf 0 (by decide) (by decide) (by decide)).2.2

/-! ## Set-list lemmas and the dictionary invariant (claim C4) -/

theorem mem_setAdd {l : List String} {x y : String} :
    y ∈ setAdd l x ↔ y ∈ l ∨ y = x := by
  unfold setAdd
  split
  · rename_i hx
    constructor
    · exact Or.inl
    · intro h
      rcases h with h | h
      · exact h
      · rw [h]; exact hx
  · simp

theorem nodup_setAdd {l : List String} {x : String} (h : l.Nodup) : (setAdd l x).Nodup := by
  unfold setAdd
  split
  · exact h
  · rename_i hx
    rw [List.nodup_append]
    refine ⟨h, List.nodup_singleton x, ?_⟩
    intro a ha hax
    rw [List.mem_singleton] at hax
    exact hx (hax ▸ ha)

theorem length_setAdd_of_not_mem {l : List String} {x : String} (h : x ∉ l) :
    (setAdd l x).length = l.length + 1 := by
  unfold setAdd
  rw [if_neg h]
  simp

theorem mapIdxFrom_length {α β} (f : Nat → α → β) :
    ∀ (l : List α) (n : Nat), (mapIdxFrom f n l).length = l.length := by
  intro l
  induction l with
  | nil => intro n; rfl
  | cons x rest ih => intro n; simp [mapIdxFrom, ih (n + 1)]

theorem mapIdxFrom_getElem? {α β} (f : Nat → α → β) :
    ∀ (l : List α) (n j : Nat), (mapIdxFrom f n l)[j]? = (l[j]?).map (f (n + j)) := by
  intro l
  induction l with
  | nil => intro n j; simp [mapIdxFrom]
  | cons x rest ih =>
    intro n j
    cases j with
    | zero => simp [mapIdxFrom]
    | succ j' =>
      simp only [mapIdxFrom, List.getElem?_cons_succ, ih (n + 1) j']
      rw [show n + 1 + j' = n + (j' + 1) from by omega]

theorem nodup_termfold :
    ∀ (ts : List (String × Fraction)) (acc : List String), acc.Nodup →
      (ts.foldl (fun s t => setAdd s t.1) acc).Nodup := by
  intro ts
  induction ts with
  | nil => intro acc h; exact h
  | cons t rest ih => intro acc h; exact ih _ (nodup_setAdd h)

theorem nodup_nonBasicsOf (obj : Expression) (cons : List Equation) :
    (nonBasicsOf obj cons).Nodup := by
  unfold nonBasicsOf
  have base : (obj.terms.foldl (fun s t => setAdd s t.1) []).Nodup :=
    nodup_termfold _ _ List.nodup_nil
  generalize obj.terms.foldl (fun s t => setAdd s t.1) [] = acc at base ⊢
  induction cons generalizing acc with
  | nil => exact base
  | cons c rest ih => exact ih _ (nodup_termfold _ _ base)

theorem foldl_setAdd_eq_append :
    ∀ (cons : List Equation) (acc : List String),
      (∀ c ∈ cons, c.lhsVar ∉ acc) →
      (cons.map (fun c => c.lhsVar)).Nodup →
      cons.foldl (fun s c => setAdd s c.lhsVar) acc = acc ++ cons.map (fun c => c.lhsVar) := by
  intro cons
  induction cons with
  | nil => intro acc _ _; simp
  | cons c rest ih =>
    intro acc hnm hnd
    simp only [List.map_cons, List.nodup_cons] at hnd
    simp only [List.foldl_cons]
    have hstep : setAdd acc c.lhsVar = acc ++ [c.lhsVar] := by
      unfold setAdd
      rw [if_neg (hnm c (List.mem_cons_self _ _))]
    rw [hstep, ih (acc ++ [c.lhsVar]) ?hn hnd.2]
    · simp
    case hn =>
      intro c' hc'
      rw [List.mem_append, List.mem_singleton]
      rintro (h | h)
      · exact hnm c' (List.mem_cons_of_mem _ hc') h
      · exact hnd.1 (h ▸ List.mem_map_of_mem (fun c => c.lhsVar) hc')

theorem basicsOf_eq_map {cons : List Equation}
    (h : (cons.map (fun c => c.lhsVar)).Nodup) :
    basicsOf cons = cons.map (fun c => c.lhsVar) := by
  unfold basicsOf
  rw [foldl_setAdd_eq_append cons [] (fun c _ => List.not_mem_nil _) h]
  simp

theorem nodup_map_lhs_pairwise {cons : List Equation}
    (h : (cons.map (fun c => c.lhsVar)).Nodup) :
    ∀ (j k : Nat) (cj ck : Equation), cons[j]? = some cj → cons[k]? = some ck → j ≠ k →
      cj.lhsVar ≠ ck.lhsVar := by
  intro j k cj ck hj hk hjk heq
  have hj' : (cons.map (fun c => c.lhsVar))[j]? = some cj.lhsVar := by
    rw [List.getElem?_map, hj]; rfl
  have hk' : (cons.map (fun c => c.lhsVar))[k]? = some ck.lhsVar := by
    rw [List.getElem?_map, hk]; rfl
  have hlen : j < (cons.map (fun c => c.lhsVar)).length := by
    obtain ⟨hlt, _⟩ := List.getElem?_eq_some.mp hj'
    exact hlt
  apply hjk
  apply List.getElem?_inj hlen h
  rw [hj', hk', heq]

/-- The dictionary-shape invariant of claim C4: duplicate-free basic and
non-basic sets, disjointness, pairwise-distinct constraint left sides that
all belong to the basic set, one basic name per constraint, and as many
non-basic names as declared variables. -/
def DictInv (lp : LinearProgram) : Prop :=
  lp.basics.Nodup ∧ lp.nonBasics.Nodup ∧
  (∀ v ∈ lp.basics, v ∉ lp.nonBasics) ∧
  (∀ (j k : Nat) (cj ck : Equation),
    lp.constraints[j]? = some cj → lp.constraints[k]? = some ck → j ≠ k →
    cj.lhsVar ≠ ck.lhsVar) ∧
  (∀ c ∈ lp.constraints, c.lhsVar ∈ lp.basics) ∧
  lp.basics.length = lp.constraints.length ∧
  (lp.nonBasics.length : Int) = lp.varCount

theorem DictInv_doPivot (lp : LinearProgram) (e : String) (i : Nat)
    (hinv : DictInv lp) (he : e ∈ lp.nonBasics) (hi : i < lp.constraints.length) :
    DictInv (doPivot lp e i) := by
  obtain ⟨hbnd, hnnd, hdisj, hpair, hlhs, hblen, hnlen⟩ := hinv
  have hget : lp.constraints[i]? = some lp.constraints[i] := List.getElem?_eq_getElem hi
  set c := lp.constraints[i] with hc
  have hcmem : c ∈ lp.constraints := List.getElem_mem hi
  have hbB : c.lhsVar ∈ lp.basics := hlhs c hcmem
  have heB : e ∉ lp.basics := fun hh => hdisj e hh he
  have hbN : c.lhsVar ∉ lp.nonBasics := hdisj c.lhsVar hbB
  have hne : e ≠ c.lhsVar := fun hh => heB (hh ▸ hbB)
  rw [doPivot_eq_of_get lp e i c hget]
  have hbne : (setAdd (setDelete lp.basics c.lhsVar) e).Nodup :=
    nodup_setAdd (List.Nodup.erase _ hbnd)
  have hnne : (setAdd (setDelete lp.nonBasics e) c.lhsVar).Nodup :=
    nodup_setAdd (List.Nodup.erase _ hnnd)
  have hmemB' : ∀ v, v ∈ setAdd (setDelete lp.basics c.lhsVar) e ↔
      (v ∈ lp.basics ∧ v ≠ c.lhsVar) ∨ v = e := by
    intro v
    rw [mem_setAdd]
    unfold setDelete
    rw [List.Nodup.mem_erase_iff hbnd]
    tauto
  have hmemN' : ∀ v, v ∈ setAdd (setDelete lp.nonBasics e) c.lhsVar ↔
      (v ∈ lp.nonBasics ∧ v ≠ e) ∨ v = c.lhsVar := by
    intro v
    rw [mem_setAdd]
    unfold setDelete
    rw [List.Nodup.mem_erase_iff hnnd]
    tauto
  refine ⟨hbne, hnne, ?_, ?_, ?_, ?_, ?_⟩
  · -- disjointness
    intro v hv hv'
    rw [hmemB'] at hv
    rw [hmemN'] at hv'
    rcases hv with ⟨hvB, hvne⟩ | rfl
    · rcases hv' with ⟨hvN, _⟩ | hvb
      · exact hdisj v hvB hvN
      · exact hvne hvb
    · rcases hv' with ⟨hvN, hvne⟩ | hvb
      · exact hvne rfl
      · exact hne hvb
  · -- pairwise-distinct left sides
    intro j k cj ck hj hk hjk
    rw [mapIdxFrom_getElem?] at hj hk
    simp only [Nat.zero_add] at hj hk
    cases hgj : lp.constraints[j]? with
    | none => rw [hgj] at hj; cases hj
    | some aj =>
      cases hgk : lp.constraints[k]? with
      | none => rw [hgk] at hk; cases hk
      | some ak =>
        rw [hgj, Option.map_some'] at hj
        rw [hgk, Option.map_some'] at hk
        injection hj with hj
        injection hk with hk
        by_cases hji : j = i
        · have hki : ¬(k = i) := fun hh => hjk (by omega)
          rw [if_pos hji] at hj
          rw [if_neg hki] at hk
          rw [← hj, ← hk]
          simp only
          have hak : ak.lhsVar ∈ lp.basics := hlhs ak (List.getElem?_mem hgk)
          exact fun hh => heB (hh ▸ hak)
        · rw [if_neg hji] at hj
          by_cases hki : k = i
          · rw [if_pos hki] at hk
            rw [← hj, ← hk]
            simp only
            have haj : aj.lhsVar ∈ lp.basics := hlhs aj (List.getElem?_mem hgj)
            exact fun hh => heB (hh ▸ haj)
          · rw [if_neg hki] at hk
            rw [← hj, ← hk]
            simp only
            exact hpair j k aj ak hgj hgk hjk
  · -- left sides belong to the new basic set
    intro c' hc'
    obtain ⟨k, a, hka, hfa⟩ := mapIdxFrom_mem _ _ 0 c' hc'
    rw [Nat.zero_add] at hfa
    by_cases hk : k = i
    · rw [hfa, if_pos hk]
      rw [hmemB']
      exact Or.inr rfl
    · rw [hfa, if_neg hk]
      simp only
      rw [hmemB']
      refine Or.inl ⟨hlhs a (List.getElem?_mem hka), ?_⟩
      have := hpair k i a c hka hget hk
      exact this
  · -- sizes of basics and constraints agree
    rw [mapIdxFrom_length]
    have h1 : (setDelete lp.basics c.lhsVar).length = lp.basics.length - 1 :=
      List.length_erase_of_mem hbB
    have h2 : e ∉ setDelete lp.basics c.lhsVar := by
      unfold setDelete
      rw [List.Nodup.mem_erase_iff hbnd]
      exact fun hh => heB hh.2
    rw [length_setAdd_of_not_mem h2, h1]
    have : 0 < lp.basics.length := List.length_pos_of_mem hbB
    omega
  · -- non-basic count still matches the variable count
    have h1 : (setDelete lp.nonBasics e).length = lp.nonBasics.length - 1 :=
      List.length_erase_of_mem he
    have h2 : c.lhsVar ∉ setDelete lp.nonBasics e := by
      unfold setDelete
      rw [List.Nodup.mem_erase_iff hnnd]
      exact fun hh => hbN hh.2
    rw [length_setAdd_of_not_mem h2, h1]
    have : 0 < lp.nonBasics.length := List.length_pos_of_mem he
    simp only
    rw [← hnlen]
    omega

theorem innerScan_ok_some (v : String) :
    ∀ (l : List (Nat × Equation)) (acc : Option Candidate) (cand : Candidate),
      innerScan v l acc = .ok (some cand) →
      acc = some cand ∨ (cand.varName = v ∧ ∃ eq, (cand.consIdx, eq) ∈ l) := by
  intro l
  induction l with
  | nil =>
    intro acc cand h
    simp only [innerScan] at h
    injection h with h
    exact Or.inl h
  | cons p rest ih =>
    intro acc cand h
    obtain ⟨i, eq⟩ := p
    simp only [innerScan] at h
    split at h
    · cases acc with
      | none =>
        rcases ih _ cand h with hacc | ⟨hv, eq', hmem⟩
        · injection hacc with hacc
          subst hacc
          exact Or.inr ⟨rfl, eq, List.mem_cons_self _ _⟩
        · exact Or.inr ⟨hv, eq', List.mem_cons_of_mem _ hmem⟩
      | some best =>
        simp only at h
        split at h
        · cases h
        · split at h
          · rcases ih _ cand h with hacc | ⟨hv, eq', hmem⟩
            · injection hacc with hacc
              subst hacc
              exact Or.inr ⟨rfl, eq, List.mem_cons_self _ _⟩
            · exact Or.inr ⟨hv, eq', List.mem_cons_of_mem _ hmem⟩
          · rcases ih _ cand h with hacc | ⟨hv, eq', hmem⟩
            · exact Or.inl hacc
            · exact Or.inr ⟨hv, eq', List.mem_cons_of_mem _ hmem⟩
    · rcases ih _ cand h with hacc | ⟨hv, eq', hmem⟩
      · exact Or.inl hacc
      · exact Or.inr ⟨hv, eq', List.mem_cons_of_mem _ hmem⟩

theorem pickEnterAux_candidates (obj : Expression) (icons : List (Nat × Equation))
    (nbs : List String) :
    ∀ (vs : List String) (acc cs : List Candidate),
      (∀ v ∈ vs, v ∈ nbs) →
      (∀ c ∈ acc, c.varName ∈ nbs ∧ ∃ eq, (c.consIdx, eq) ∈ icons) →
      pickEnterAux obj icons vs acc = .ok (.candidates cs) →
      ∀ c ∈ cs, c.varName ∈ nbs ∧ ∃ eq, (c.consIdx, eq) ∈ icons := by
  intro vs
  induction vs with
  | nil =>
    intro acc cs hvs hacc h
    simp only [pickEnterAux] at h
    split at h
    · injection h with h; cases h
    · injection h with h
      injection h with h
      subst h
      exact hacc
  | cons v vs ih =>
    intro acc cs hvs hacc h
    simp only [pickEnterAux] at h
    split at h
    · cases hscan : innerScan v icons none with
      | error e0 => rw [hscan] at h; cases h
      | ok o =>
        rw [hscan] at h
        cases o with
        | none => injection h with h; cases h
        | some cand =>
          refine ih (acc ++ [cand]) cs (fun u hu => hvs u (List.mem_cons_of_mem _ hu)) ?_ h
          intro c hc
          rcases List.mem_append.mp hc with hcacc | hcand
          · exact hacc c hcacc
          · rw [List.mem_singleton] at hcand
            subst hcand
            rcases innerScan_ok_some v icons none c hscan with habs | ⟨hv, eq, hmem⟩
            · cases habs
            · refine ⟨?_, eq, hmem⟩
              rw [hv]
              exact hvs v (List.mem_cons_self _ _)
    · exact ih acc cs (fun u hu => hvs u (List.mem_cons_of_mem _ hu)) hacc h

theorem cyclingPick_mem (c0 : Candidate) (rest : List Candidate) (obj : Expression)
    (hist : List Expression) :
    (cyclingPick c0 rest obj hist).1 = c0 ∨ (cyclingPick c0 rest obj hist).1 ∈ rest := by
  unfold cyclingPick
  split
  · split
    · cases rest with
      | nil => exact Or.inl rfl
      | cons c1 rest' => exact Or.inr (List.mem_cons_self _ _)
    · exact Or.inl rfl
  · exact Or.inl rfl

theorem DictInv_nextStep (lp lp' : LinearProgram) (r : Result)
    (hinv : DictInv lp) (h : nextStep lp = some (r, lp')) : DictInv lp' := by
  simp only [nextStep] at h
  split at h
  · have hp := Option.some.inj h
    have hlp : lp = lp' := congrArg Prod.snd hp
    rw [← hlp]
    exact hinv
  · split at h
    · split at h
      · cases h
      · have hp := Option.some.inj h
        have hlp : clearHistory lp = lp' := congrArg Prod.snd hp
        rw [← hlp]
        exact hinv
      · cases h
      · rename_i cs heq
        split at h
        · cases h
        · rename_i c0 rest
          have hcand := pickEnterAux_candidates lp.objective (enumFrom 0 lp.constraints)
            lp.nonBasics lp.nonBasics [] (c0 :: rest) (fun v hv => hv)
            (fun c hc => absurd hc (List.not_mem_nil c)) heq
          have hpickmem : (cyclingPick c0 rest lp.objective lp.history).1 ∈ c0 :: rest := by
            rcases cyclingPick_mem c0 rest lp.objective lp.history with hm | hm
            · rw [hm]; exact List.mem_cons_self _ _
            · exact List.mem_cons_of_mem _ hm
          obtain ⟨hvn, eq, hmem⟩ := hcand _ hpickmem
          obtain ⟨k, hk0, hgetk⟩ := enumFrom_mem_getElem _ 0 _ eq hmem
          have hlt : (cyclingPick c0 rest lp.objective lp.history).1.consIdx <
              lp.constraints.length := by
            obtain ⟨hl, _⟩ := List.getElem?_eq_some.mp hgetk
            omega
          have hinv1 : DictInv (doPivot
              { lp with history := (cyclingPick c0 rest lp.objective lp.history).2 }
              (cyclingPick c0 rest lp.objective lp.history).1.varName
              (cyclingPick c0 rest lp.objective lp.history).1.consIdx) :=
            DictInv_doPivot _ _ _ hinv hvn hlt
          split at h
          · split at h
            · have hp := Option.some.inj h
              have hlp : _ = lp' := congrArg Prod.snd hp
              rw [← hlp]
              exact hinv1
            · split at h
              · have hp := Option.some.inj h
                have hlp : _ = lp' := congrArg Prod.snd hp
                rw [← hlp]
                exact hinv1
              · have hp := Option.some.inj h
                have hlp : _ = lp' := congrArg Prod.snd hp
                rw [← hlp]
                exact hinv1
          · cases h
    · have hp := Option.some.inj h
      have hlp : lp = lp' := congrArg Prod.snd hp
      rw [← hlp]
      exact hinv

/-- A valid construction with two constraints sharing the basic name `w1`:
variables = 1, objective `x1`, constraints `w1 = 1 - x1` and `w1 = 2 - x1`. -/
def lpDup : LinearProgram :=
  ⟨1, ["x1"], ⟨[("x1", 1)], []⟩,
   [⟨"w1", 1, ⟨[("x1", -1)], [1]⟩⟩, ⟨"w1", 1, ⟨[("x1", -1)], [2]⟩⟩], ["w1"], none, []⟩

/-- Claim C4 counterexample: `lpDup` is a successful construction (both
constraints name `w1`, which the Set-typed basic set collapses), yet after
the pivot performed by the next step the basic and non-basic sets have 1 + 1
= 2 names while variable count + constraint count = 1 + 2 = 3. -/
theorem claim_C4_counterexample :
    mkLP 1 lpDup.objective lpDup.constraints = some lpDup ∧
    (nextStep lpDup).map (fun p =>
      ((p.2.basics.length : Int) + p.2.nonBasics.length,
        p.2.varCount + (p.2.constraints.length : Int))) = some (2, 3) ∧
    (2 : Int) ≠ 3 := by decide

/-- Claim C4 (amended): for every LinearProgram whose construction succeeds
with pairwise-distinct constraint basic names and with the basic set
disjoint from the non-basic set, the dictionary invariant holds and is
preserved by every step (in particular by every pivot `next()` performs),
and it entails that the basic and non-basic sets are disjoint and that their
sizes sum to variable count + constraint count. -/
theorem claim_C4 :
    (∀ (vc : Int) (obj : Expression) (cons : List Equation) (lp : LinearProgram),
      mkLP vc obj cons = some lp →
      (cons.map (fun c => c.lhsVar)).Nodup →
      (∀ v ∈ lp.basics, v ∉ lp.nonBasics) →
      DictInv lp) ∧
    (∀ (lp lp' : LinearProgram) (r : Result),
      DictInv lp → nextStep lp = some (r, lp') → DictInv lp') ∧
    (∀ lp : LinearProgram, DictInv lp →
      (∀ v ∈ lp.basics, v ∉ lp.nonBasics) ∧
      (lp.basics.length : Int) + lp.nonBasics.length =
        lp.varCount + lp.constraints.length) := by
  refine ⟨?_, ?_, ?_⟩
  · intro vc obj cons lp hmk hnd hdisj
    obtain ⟨hlpeq, hpos, hlen⟩ := mkLP_inv hmk
    subst hlpeq
    refine ⟨?_, nodup_nonBasicsOf obj cons, hdisj, ?_, ?_, ?_, hlen⟩
    · show (basicsOf cons).Nodup
      rw [basicsOf_eq_map hnd]
      exact hnd
    · exact nodup_map_lhs_pairwise hnd
    · intro c hc
      show c.lhsVar ∈ basicsOf cons
      rw [basicsOf_eq_map hnd]
      exact List.mem_map_of_mem _ hc
    · show (basicsOf cons).length = cons.length
      rw [basicsOf_eq_map hnd]
      exact List.length_map _ _
  · intro lp lp' r hinv h
    exact DictInv_nextStep lp lp' r hinv h
  · intro lp hinv
    obtain ⟨_, _, hdisj, _, _, hblen, hnlen⟩ := hinv
    refine ⟨hdisj, ?_⟩
    rw [hblen, hnlen]
    push_cast
    ring

/-- Witness for claim C4 at the golden-scenario program. -/
theorem claim_C4_witness :
    (∀ v ∈ lpC1.basics, v ∉ lpC1.nonBasics) ∧
    (lpC1.basics.length : Int) + lpC1.nonBasics.length =
      lpC1.varCount + lpC1.constraints.length :=
  claim_C4.2.2 lpC1 (claim_C4.1 2 objC1 consC1 lpC1 (by decide) (by decide) (by decide))
